import Mathlib

/-!
Shallow embedding of the grid interpolation engine of
`minesweeper_OLD/fastMISTmod.py` (class `fastMISTgen`): conversion of label
values to fractional pixel coordinates (`params_to_grid`), neighbor search
(`knearest_inds`), multilinear weights (`linear_weights`, `weights`),
evaluation (`getMIST`), and the per-group age-weight construction
(`addagewgt`).  Machine floats are modelled by rationals; a raised
`ValueError`/`IndexError` is modelled by `none`/`Except.error`.
-/

namespace FastMIST

/-- Semantics of `np.digitize(x, bins, right=True)` on sorted `bins`: the
number of bin edges strictly below `x` (the index `i` with
`bins[i-1] < x <= bins[i]`).  Used in `lib_as_grid` to pixelize the library. -/
def digitizeRight (bins : List ℚ) (x : ℚ) : ℕ :=
  (bins.filter (fun b => b < x)).length

/-- Semantics of `np.digitize(x, bins, right=False)` on sorted `bins`: the
number of bin edges at or below `x` (the index `i` with
`bins[i-1] <= x < bins[i]`).  Used in `params_to_grid`. -/
def digitizeLeft (bins : List ℚ) (x : ℚ) : ℕ :=
  (bins.filter (fun b => b ≤ x)).length

/-- Semantics of `np.diff`: gaps between consecutive entries (the stored
`binwidths`). -/
def diffs : List ℚ → List ℚ
  | a :: b :: r => (b - a) :: diffs (b :: r)
  | _ => []

/-- Python sequence indexing with negative-index wraparound; `none` models an
`IndexError`. -/
def pyGet? {α : Type} (l : List α) (i : ℤ) : Option α :=
  let j := if 0 ≤ i then i else (l.length : ℤ) + i
  if 0 ≤ j then l.get? j.toNat else none

/-- One axis of `fastMISTgen.params_to_grid`: bin index from right-open
digitize minus one, then the gridpoint and binwidth looked up at that
(possibly negative, Python-indexed) position and the fractional offset
`ind + (t - gridpoints[ind]) / binwidths[ind]`; `none` models the
`IndexError` caught there. -/
def axisCoord (gp : List ℚ) (t : ℚ) : Option ℚ :=
  match pyGet? gp ((digitizeLeft gp t : ℤ) - 1),
      pyGet? (diffs gp) ((digitizeLeft gp t : ℤ) - 1) with
  | some g, some bw => some ((((digitizeLeft gp t : ℤ) - 1) : ℚ) + (t - g) / bw)
  | _, _ => none

/-- The immutable state built by `fastMISTgen.__init__`/`make_lib`:
label names, per-axis sorted unique gridpoint values, the library rows
(label values in label order) and the output rows (`npred` prediction
columns per row). -/
structure MISTgrid where
  labels : List String
  gridpoints : List (List ℚ)
  libparams : List (List ℚ)
  output : List (List ℚ)
  npred : ℕ

/-- Model of `self.ndim = len(self.labels)`. -/
def MISTgrid.ndim (g : MISTgrid) : ℕ := g.labels.length

/-- Model of `lib_as_grid`: every library row digitized (right-closed) against the
per-axis gridpoints, giving the integer pixel coordinates fed to the KDTree. -/
def MISTgrid.X (g : MISTgrid) : List (List ℤ) :=
  g.libparams.map (fun row =>
    (g.gridpoints.zip row).map (fun p => (digitizeRight p.1 p.2 : ℤ)))

/-- The diagnostic text built in `params_to_grid`'s `except(IndexError)`
branch, as data: one `(label, targ, min, max)` tuple per axis, in the
format-argument order of `"{0}: min={2} max={3} targ={1}"`. -/
def MISTgrid.errPayload (g : MISTgrid) (targ : List ℚ) : List (String × ℚ × ℚ × ℚ) :=
  (g.labels.zip (g.gridpoints.zip targ)).map
    (fun p => (p.1, p.2.2, p.2.1.headI, p.2.1.getLast!))

/-- The list comprehension building `find` in `params_to_grid`, over the
zipped per-axis (gridpoints, target) pairs: all axis coordinates, or `none`
as soon as any axis raises `IndexError`. -/
def axisCoords : List (List ℚ × ℚ) → Option (List ℚ)
  | [] => some []
  | p :: rest =>
    (axisCoord p.1 p.2).bind (fun c => (axisCoords rest).bind (fun cs => some (c :: cs)))

/-- Model of `fastMISTgen.params_to_grid`: per-axis fractional pixel coordinates, or
the `ValueError("At least one parameter outside grid...")` carrying the
per-axis diagnostics when some axis lookup raised `IndexError`. -/
def params_to_grid (g : MISTgrid) (targ : List ℚ) :
    Except (List (String × ℚ × ℚ × ℚ)) (List ℚ) :=
  match axisCoords (g.gridpoints.zip targ) with
  | some xs => .ok xs
  | none => .error (g.errPayload targ)

/-- Squared Euclidean distance between a fractional query point and an
integer pixel coordinate. -/
def sqdist (a : List ℚ) (b : List ℤ) : ℚ :=
  ((a.zip b).map (fun p => (p.1 - (p.2 : ℚ)) ^ 2)).sum

/-- Model of `fastMISTgen.knearest_inds`: semantics of the KDTree
`query_ball_point(xtarg, sqrt(ndim))` followed by `np.sort` — the
ascending list of all row indices whose pixel coordinate is within
Euclidean distance `sqrt(ndim)` of `xtarg`. -/
def knearest_inds (g : MISTgrid) (xtarg : List ℚ) : List ℕ :=
  (List.range g.X.length).filter (fun i => sqdist xtarg (g.X.getD i []) ≤ (g.ndim : ℚ))

/-- The per-axis factor of `fastMISTgen.linear_weights` at displacement
`d = xtarg - x`: the code computes `((1-d)*(d>=0) + (1+d)*(d<0))` and then
multiplies by the mask `(d>-1)*(d<1)`. -/
def axisWeight (d : ℚ) : ℚ :=
  ((1 - d) * (if 0 ≤ d then 1 else 0) + (1 + d) * (if d < 0 then 1 else 0))
    * ((if -1 < d then 1 else 0) * (if d < 1 then 1 else 0))

/-- The overall weight of one vertex in `linear_weights`: product of the
per-axis factors (`wght.prod(axis=-1)`). -/
def vertexWeight (xtarg : List ℚ) (x : List ℤ) : ℚ :=
  ((xtarg.zip x).map (fun p => axisWeight (p.1 - (p.2 : ℚ)))).prod

/-- Model of `fastMISTgen.linear_weights`: the weight of each of the `knearest`
vertices. -/
def linear_weights (g : MISTgrid) (knearest : List ℕ) (xtarg : List ℚ) : List ℚ :=
  knearest.map (fun k => vertexWeight xtarg (g.X.getD k []))

/-- Model of `fastMISTgen.weights` (after the keyword renaming): pixel conversion,
neighbor query (`ValueError` when empty), linear weights (`ValueError` when
their sum is at or below `self._strictness`), filtering of non-positive
weights and renormalization.  `none` models the raised `ValueError`. -/
def weightsFn (g : MISTgrid) (strictness : ℚ) (targ : List ℚ) :
    Option (List ℕ × List ℚ) :=
  match params_to_grid g targ with
  | .error _ => none
  | .ok xtarg =>
    let inds := knearest_inds g xtarg
    if inds = [] then none
    else
      let w := linear_weights g inds xtarg
      if w.sum ≤ strictness then none
      else
        let iw := (inds.zip w).filter (fun p => 0 < p.2)
        let s := (iw.map (fun p => p.2)).sum
        some (iw.map (fun p => p.1), iw.map (fun p => p.2 / s))

/-- Model of `np.dot(wghts, self.output[inds, :])`: column `j` of the result is the
weighted sum of column `j` of the selected output rows. -/
def dotCols (out : List (List ℚ)) (ncol : ℕ) (inds : List ℕ) (w : List ℚ) :
    List ℚ :=
  (List.range ncol).map (fun j =>
    ((inds.zip w).map (fun p => p.2 * ((out.getD p.1 []).getD j 0))).sum)

/-- Model of `fastMISTgen.getMIST`: the query `[eep, mass, feh]` (the default label
order `EEP, initial_mass, initial_[Fe/H]`) run through `weights`, then the
interpolated predictions appended to `[eep, mass, feh]`; `none` models the
`return None` of the `except(ValueError)` branch. -/
def getMIST (g : MISTgrid) (strictness : ℚ) (mass eep feh : ℚ) :
    Option (List ℚ) :=
  match weightsFn g strictness [eep, mass, feh] with
  | some iw => some ([eep, mass, feh] ++ dotCols g.output g.npred iw.1 iw.2)
  | none => none

/-- Interior and trailing entries of `np.gradient` on a list with at least
two entries, after its first entry: central difference `(next - prev)/2`
inside, one-sided difference at the trailing edge. -/
def gradMid : ℚ → ℚ → List ℚ → List ℚ
  | prev, cur, [] => [cur - prev]
  | prev, cur, next :: rest => ((next - prev) / 2) :: gradMid cur next rest

/-- Semantics of `np.gradient` with unit spacing: one-sided differences at
the two edges, central differences inside.  (`np.gradient` on fewer than two
samples raises; those lists are mapped to `[]` and never arise in use.) -/
def npGradient : List ℚ → List ℚ
  | [] => []
  | [_] => []
  | a0 :: a1 :: rest => (a1 - a0) :: gradMid a0 a1 rest

/-- The per-group body of `fastMISTgen.addagewgt`: `grad/np.sum(grad)` of
the un-logged ages `10.0**aa` of one `(initial_mass, initial_[Fe/H])` group;
`linAges` is that un-logged age list. -/
def ageWeights (linAges : List ℚ) : List ℚ :=
  (npGradient linAges).map (fun x => x / (npGradient linAges).sum)

/-- The row indices of one `(initial_mass, initial_[Fe/H])` group, i.e. the
mask `(libparams["initial_mass"] == m) & (libparams["initial_[Fe/H]"] == z)`
under the default label order `[EEP, initial_mass, initial_[Fe/H]]`. -/
def groupInds (g : MISTgrid) (m z : ℚ) : List ℕ :=
  (List.range g.libparams.length).filter (fun i =>
    (g.libparams.getD i []).getD 1 0 = m ∧ (g.libparams.getD i []).getD 2 0 = z)

/-- The log-age column `aa = self.output[:, inds][age_ind]` of one group. -/
def groupLogAges (g : MISTgrid) (ageInd : ℕ) (m z : ℚ) : List ℚ :=
  (groupInds g m z).map (fun i => (g.output.getD i []).getD ageInd 0)

/-- The weights `addagewgt` scatters into `age_wgtarr[inds]` for one group.
`tenPow` stands for the float map `10.0 ** ·` (kept as a parameter of the
embedding because `10^x` is irrational for almost every rational `x`); it is
strictly monotone, which is the only property the theorems below use. -/
def addagewgtGroup (tenPow : ℚ → ℚ) (g : MISTgrid) (ageInd : ℕ) (m z : ℚ) :
    List ℚ :=
  ageWeights ((groupLogAges g ageInd m z).map tenPow)

/-- A small concrete instance of the default 3-label grid (axes
`EEP ∈ {0,1,2}`, `initial_mass ∈ {0,1}`, `initial_[Fe/H] ∈ {0,1}`, one
prediction column), used to evaluate the pipeline at concrete queries. -/
def sampleGrid : MISTgrid :=
  { labels := ["EEP", "initial_mass", "initial_[Fe/H]"]
    gridpoints := [[0, 1, 2], [0, 1], [0, 1]]
    libparams :=
      [[0, 0, 0], [0, 0, 1], [0, 1, 0], [0, 1, 1],
       [1, 0, 0], [1, 0, 1], [1, 1, 0], [1, 1, 1],
       [2, 0, 0], [2, 0, 1], [2, 1, 0], [2, 1, 1]]
    output := [[10], [11], [12], [13], [14], [15], [16], [17], [18], [19], [20], [21]]
    npred := 1 }

/-- An even smaller concrete grid (two stored vertices on the diagonal of
the unit cube), cheap to evaluate through the whole pipeline. -/
def miniGrid : MISTgrid :=
  { labels := ["EEP", "initial_mass", "initial_[Fe/H]"]
    gridpoints := [[0, 1], [0, 1], [0, 1]]
    libparams := [[0, 0, 0], [1, 1, 1]]
    output := [[5], [9]]
    npred := 1 }

/-! ### Helper lemmas about the per-axis weight factors -/

theorem axisWeight_eq_cases (d : ℚ) :
    axisWeight d = if 1 ≤ |d| then 0 else if 0 ≤ d then 1 - d else 1 + d := by
  rcases le_or_lt 1 |d| with h | h
  · rw [if_pos h]
    rcases le_abs.mp h with h1 | h1
    · have : ¬ d < 1 := by linarith
      simp [axisWeight, this]
    · have : ¬ (-1 : ℚ) < d := by linarith
      simp [axisWeight, this]
  · rw [if_neg (not_le.mpr h)]
    obtain ⟨hl, hr⟩ := abs_lt.mp h
    rcases le_or_lt 0 d with h0 | h0
    · simp [axisWeight, h0, not_lt.mpr h0, hl, hr]
    · simp [axisWeight, h0, not_le.mpr h0, hl, hr]

theorem axisWeight_nonneg (d : ℚ) : 0 ≤ axisWeight d := by
  rw [axisWeight_eq_cases]
  split_ifs with h1 h2
  · exact le_refl 0
  · obtain ⟨ha, hb⟩ := abs_lt.mp (not_le.mp h1)
    linarith
  · obtain ⟨ha, hb⟩ := abs_lt.mp (not_le.mp h1)
    linarith

theorem axisWeight_zero : axisWeight 0 = 1 := by
  norm_num [axisWeight]

theorem axisWeight_int_ne_zero (n : ℤ) (hn : n ≠ 0) : axisWeight (n : ℚ) = 0 := by
  rw [axisWeight_eq_cases, if_pos]
  have h1 : (1 : ℤ) ≤ |n| := Int.one_le_abs hn
  calc (1 : ℚ) ≤ (|n| : ℤ) := by exact_mod_cast h1
    _ = |(n : ℚ)| := by push_cast; ring

theorem list_prod_nonneg (l : List ℚ) (h : ∀ x ∈ l, 0 ≤ x) : 0 ≤ l.prod :=
  List.prod_nonneg h

theorem vertexWeight_nonneg (xtarg : List ℚ) (x : List ℤ) :
    0 ≤ vertexWeight xtarg x := by
  refine list_prod_nonneg _ (fun w hw => ?_)
  obtain ⟨p, _, rfl⟩ := List.mem_map.mp hw
  exact axisWeight_nonneg _

theorem vertexWeight_self (x : List ℤ) :
    vertexWeight (x.map (fun n : ℤ => (n : ℚ))) x = 1 := by
  induction x with
  | nil => rfl
  | cons a rest ih =>
    simp only [vertexWeight, List.map_cons, List.zip_cons_cons, List.prod_cons] at ih ⊢
    rw [sub_self, axisWeight_zero, one_mul]
    exact ih

theorem vertexWeight_ne (x y : List ℤ) (hlen : x.length = y.length) (hne : x ≠ y) :
    vertexWeight (x.map (fun n : ℤ => (n : ℚ))) y = 0 := by
  induction x generalizing y with
  | nil =>
    cases y with
    | nil => exact absurd rfl hne
    | cons b ys => simp at hlen
  | cons a xs ih =>
    cases y with
    | nil => simp at hlen
    | cons b ys =>
      simp only [vertexWeight, List.map_cons, List.zip_cons_cons, List.prod_cons]
      rcases eq_or_ne a b with rfl | hab
      · have hxy : xs ≠ ys := fun h => hne (by rw [h])
        have := ih ys (by simpa using hlen) hxy
        simp only [vertexWeight] at this
        rw [this, mul_zero]
      · have : (a : ℚ) - (b : ℚ) = ((a - b : ℤ) : ℚ) := by push_cast; ring
        rw [this, axisWeight_int_ne_zero _ (sub_ne_zero.mpr hab), zero_mul]

/-! ### Helper lemmas about sorted axes and digitize -/

theorem getLast!_mem (a : ℚ) (l : List ℚ) : (a :: l).getLast! ∈ a :: l := by
  induction l generalizing a with
  | nil => simp [List.getLast!_cons]
  | cons b r ih =>
    rw [List.getLast!_cons, List.getLastD_cons]
    have := ih b
    rw [List.getLast!_cons] at this
    exact List.mem_cons_of_mem a this

theorem sorted_le_getLast! (gp : List ℚ) (hs : gp.Pairwise (· < ·))
    (x : ℚ) (hx : x ∈ gp) : x ≤ gp.getLast! := by
  induction gp with
  | nil => simp at hx
  | cons a rest ih =>
    rw [List.pairwise_cons] at hs
    rcases List.mem_cons.mp hx with rfl | hxr
    · cases rest with
      | nil => simp [List.getLast!_cons]
      | cons b r =>
        rw [List.getLast!_cons, List.getLastD_cons]
        have hb : (b :: r).getLast! ∈ b :: r := getLast!_mem b r
        rw [List.getLast!_cons] at hb
        exact le_of_lt (hs.1 _ hb)
    · cases rest with
      | nil => simp at hxr
      | cons b r =>
        rw [List.getLast!_cons, List.getLastD_cons]
        have := ih hs.2 hxr
        rw [List.getLast!_cons] at this
        exact this

theorem sorted_headI_le (gp : List ℚ) (hs : gp.Pairwise (· < ·))
    (x : ℚ) (hx : x ∈ gp) : gp.headI ≤ x := by
  cases gp with
  | nil => simp at hx
  | cons a rest =>
    rw [List.pairwise_cons] at hs
    rcases List.mem_cons.mp hx with rfl | hxr
    · simp
    · exact le_of_lt (hs.1 _ hxr)

theorem digitizeLeft_at_mem (gp : List ℚ) (t : ℚ) (pos : ℕ)
    (hs : gp.Pairwise (· < ·)) (hget : gp.get? pos = some t) :
    digitizeLeft gp t = pos + 1 := by
  induction gp generalizing pos with
  | nil => simp at hget
  | cons a rest ih =>
    rw [List.pairwise_cons] at hs
    cases pos with
    | zero =>
      simp only [List.get?_cons_zero, Option.some_inj] at hget
      subst hget
      have hnil : rest.filter (fun b => decide (b ≤ a)) = [] := by
        rw [List.filter_eq_nil_iff]
        intro b hb
        simpa using not_le.mpr (hs.1 b hb)
      simp [digitizeLeft, List.filter_cons, hnil]
    | succ n =>
      simp only [List.get?_cons_succ] at hget
      have ht : t ∈ rest := by
        rw [List.get?_eq_some] at hget
        obtain ⟨h, rfl⟩ := hget
        exact List.get_mem rest _ h
      have hat : a ≤ t := le_of_lt (hs.1 t ht)
      have := ih n hs.2 hget
      simp only [digitizeLeft] at this ⊢
      simp [List.filter_cons, hat, this]

theorem digitizeRight_at_mem (gp : List ℚ) (t : ℚ) (pos : ℕ)
    (hs : gp.Pairwise (· < ·)) (hget : gp.get? pos = some t) :
    digitizeRight gp t = pos := by
  induction gp generalizing pos with
  | nil => simp at hget
  | cons a rest ih =>
    rw [List.pairwise_cons] at hs
    cases pos with
    | zero =>
      simp only [List.get?_cons_zero, Option.some_inj] at hget
      subst hget
      have hnil : rest.filter (fun b => decide (b < a)) = [] := by
        rw [List.filter_eq_nil_iff]
        intro b hb
        simpa using not_lt.mpr (le_of_lt (hs.1 b hb))
      simp [digitizeRight, List.filter_cons, hnil]
    | succ n =>
      simp only [List.get?_cons_succ] at hget
      have ht : t ∈ rest := by
        rw [List.get?_eq_some] at hget
        obtain ⟨h, rfl⟩ := hget
        exact List.get_mem rest _ h
      have hat : a < t := hs.1 t ht
      have := ih n hs.2 hget
      simp only [digitizeRight] at this ⊢
      simp [List.filter_cons, hat, this]

theorem digitizeLeft_eq_length (gp : List ℚ) (t : ℚ)
    (h : ∀ x ∈ gp, x ≤ t) : digitizeLeft gp t = gp.length := by
  unfold digitizeLeft
  rw [List.filter_eq_self.mpr (fun a ha => by simpa using h a ha)]

theorem digitizeLeft_lt_length (gp : List ℚ) (t : ℚ) (x : ℚ)
    (hx : x ∈ gp) (hxt : t < x) : digitizeLeft gp t < gp.length := by
  unfold digitizeLeft
  exact List.length_filter_lt_length_iff_exists.mpr
    ⟨x, hx, by simpa using not_le.mpr hxt⟩

theorem digitizeLeft_eq_zero (gp : List ℚ) (t : ℚ)
    (h : ∀ x ∈ gp, t < x) : digitizeLeft gp t = 0 := by
  unfold digitizeLeft
  rw [List.filter_eq_nil_iff.mpr (fun a ha => by simpa using not_le.mpr (h a ha))]
  rfl

/-! ### Helper lemmas about diffs, Python indexing and axisCoord -/

theorem diffs_length (l : List ℚ) : (diffs l).length = l.length - 1 := by
  induction l with
  | nil => rfl
  | cons a rest ih =>
    cases rest with
    | nil => rfl
    | cons b r =>
      simp only [diffs, List.length_cons] at ih ⊢
      omega

theorem diffs_pos (l : List ℚ) (hs : l.Pairwise (· < ·)) :
    ∀ x ∈ diffs l, 0 < x := by
  induction l with
  | nil => intro x hx; simp [diffs] at hx
  | cons a rest ih =>
    cases rest with
    | nil => intro x hx; simp [diffs] at hx
    | cons b r =>
      rw [List.pairwise_cons] at hs
      intro x hx
      rcases List.mem_cons.mp hx with rfl | hxr
      · have := hs.1 b (List.mem_cons_self b r)
        linarith
      · exact ih hs.2 x hxr

theorem get?_length_sub_one (l : List ℚ) (h : l ≠ []) :
    l.get? (l.length - 1) = some l.getLast! := by
  induction l with
  | nil => exact absurd rfl h
  | cons a rest ih =>
    cases rest with
    | nil => rfl
    | cons b r =>
      have hne : (b :: r) ≠ [] := by simp
      have := ih hne
      rw [List.getLast!_cons, List.getLastD_cons]
      rw [List.getLast!_cons] at this
      simpa using this

theorem pyGet?_ofNat {α : Type} (l : List α) (n : ℕ) :
    pyGet? l (n : ℤ) = l.get? n := by
  simp [pyGet?, Int.toNat_natCast]

theorem pyGet?_neg_one (l : List ℚ) (h : l ≠ []) :
    pyGet? l (-1) = some l.getLast! := by
  have hlen : 1 ≤ l.length := List.length_pos.mpr h
  have hj : ¬ (0 : ℤ) ≤ -1 := by norm_num
  have hj2 : (0 : ℤ) ≤ (l.length : ℤ) + -1 := by omega
  simp only [pyGet?, hj, if_false, hj2, if_true]
  have : ((l.length : ℤ) + -1).toNat = l.length - 1 := by omega
  rw [this]
  exact get?_length_sub_one l h

theorem axisCoord_at_mem (gp : List ℚ) (t : ℚ) (pos : ℕ)
    (hs : gp.Pairwise (· < ·)) (hget : gp.get? pos = some t)
    (hlt : pos + 1 < gp.length) :
    axisCoord gp t = some (pos : ℚ) := by
  have hind : (digitizeLeft gp t : ℤ) - 1 = (pos : ℤ) := by
    rw [digitizeLeft_at_mem gp t pos hs hget]; push_cast; ring
  have hbw : ∃ bw, (diffs gp).get? pos = some bw := by
    have hposlen : pos < (diffs gp).length := by
      rw [diffs_length]; omega
    exact ⟨_, List.get?_eq_get hposlen⟩
  obtain ⟨bw, hbw⟩ := hbw
  unfold axisCoord
  rw [hind, pyGet?_ofNat, pyGet?_ofNat, hget, hbw]
  simp only [Option.some_inj]
  rw [digitizeLeft_at_mem gp t pos hs hget]
  push_cast
  ring

theorem axisCoord_eq_none_of_ge_max (gp : List ℚ) (t : ℚ)
    (hs : gp.Pairwise (· < ·)) (hne : gp ≠ []) (hmax : gp.getLast! ≤ t) :
    axisCoord gp t = none := by
  have hlen : 1 ≤ gp.length := List.length_pos.mpr hne
  have hdl : digitizeLeft gp t = gp.length := by
    refine digitizeLeft_eq_length gp t (fun x hx => ?_)
    exact le_trans (sorted_le_getLast! gp hs x hx) hmax
  have hind : (digitizeLeft gp t : ℤ) - 1 = ((gp.length - 1 : ℕ) : ℤ) := by
    rw [hdl]; omega
  have hnone : (diffs gp).get? (gp.length - 1) = none := by
    rw [List.get?_eq_none, diffs_length]
  obtain ⟨g0, hg0⟩ : ∃ g0, gp.get? (gp.length - 1) = some g0 :=
    ⟨_, List.get?_eq_get (by omega)⟩
  unfold axisCoord
  rw [hind, pyGet?_ofNat, pyGet?_ofNat, hnone, hg0]

theorem axisCoord_below_min (gp : List ℚ) (t : ℚ)
    (hs : gp.Pairwise (· < ·)) (hlen : 2 ≤ gp.length) (ht : t < gp.headI) :
    axisCoord gp t = some (-1 + (t - gp.getLast!) / (diffs gp).getLast!) := by
  have hne : gp ≠ [] := by
    intro h; rw [h] at hlen; simp at hlen
  have hdne : diffs gp ≠ [] := by
    have := diffs_length gp
    intro h
    rw [h] at this
    simp at this
    omega
  have hdl : digitizeLeft gp t = 0 := by
    refine digitizeLeft_eq_zero gp t (fun x hx => ?_)
    exact lt_of_lt_of_le ht (sorted_headI_le gp hs x hx)
  have hind : (digitizeLeft gp t : ℤ) - 1 = -1 := by rw [hdl]; rfl
  unfold axisCoord
  rw [hind, pyGet?_neg_one gp hne, pyGet?_neg_one (diffs gp) hdne]
  simp only [Option.some_inj]
  rw [hdl]
  norm_num

theorem axisCoord_isSome_of_lt_max (gp : List ℚ) (t : ℚ)
    (hs : gp.Pairwise (· < ·)) (hlen : 2 ≤ gp.length) (ht : t < gp.getLast!) :
    ∃ c, axisCoord gp t = some c := by
  have hne : gp ≠ [] := by
    intro h; rw [h] at hlen; simp at hlen
  have hfin : digitizeLeft gp t < gp.length := by
    refine digitizeLeft_lt_length gp t gp.getLast! ?_ ht
    cases gp with
    | nil => exact absurd rfl hne
    | cons a r => exact getLast!_mem a r
  cases hdl : digitizeLeft gp t with
  | zero =>
    refine ⟨_, axisCoord_below_min gp t hs hlen ?_⟩
    by_contra hcon
    push_neg at hcon
    have : gp.headI ∈ gp := by
      cases gp with
      | nil => exact absurd rfl hne
      | cons a r => simp
    have h1 : digitizeLeft gp t ≠ 0 := by
      unfold digitizeLeft
      intro hz
      rw [List.length_eq_zero] at hz
      have := List.filter_eq_nil_iff.mp hz gp.headI this
      simp [hcon] at this
    exact h1 hdl
  | succ m =>
    have hind : (digitizeLeft gp t : ℤ) - 1 = (m : ℤ) := by rw [hdl]; omega
    have hm : m < gp.length := by omega
    have hmd : m < (diffs gp).length := by
      rw [diffs_length]
      omega
    obtain ⟨g1, hg1⟩ : ∃ g1, gp.get? m = some g1 := ⟨_, List.get?_eq_get hm⟩
    obtain ⟨bw, hbw⟩ : ∃ bw, (diffs gp).get? m = some bw := ⟨_, List.get?_eq_get hmd⟩
    have hsome : axisCoord gp t =
        some ((((digitizeLeft gp t : ℤ) : ℚ) - 1) + (t - g1) / bw) := by
      unfold axisCoord
      rw [hind, pyGet?_ofNat, pyGet?_ofNat, hg1, hbw]
    exact ⟨_, hsome⟩

theorem axisCoord_none_iff (gp : List ℚ) (t : ℚ)
    (hs : gp.Pairwise (· < ·)) (hlen : 2 ≤ gp.length) :
    axisCoord gp t = none ↔ gp.getLast! ≤ t := by
  constructor
  · intro h
    by_contra hcon
    push_neg at hcon
    obtain ⟨c, hc⟩ := axisCoord_isSome_of_lt_max gp t hs hlen hcon
    rw [h] at hc
    exact Option.noConfusion hc
  · intro h
    refine axisCoord_eq_none_of_ge_max gp t hs ?_ h
    intro hnil; rw [hnil] at hlen; simp at hlen

/-! ### Helper lemmas about axisCoords -/

theorem axisCoords_length (l : List (List ℚ × ℚ)) (xs : List ℚ)
    (h : axisCoords l = some xs) : xs.length = l.length := by
  induction l generalizing xs with
  | nil =>
    simp only [axisCoords, Option.some_inj] at h
    cases h
    rfl
  | cons a r ih =>
    simp only [axisCoords] at h
    cases hfa : axisCoord a.1 a.2 with
    | none => rw [hfa] at h; exact Option.noConfusion h
    | some b =>
      rw [hfa] at h
      cases hr : axisCoords r with
      | none => rw [hr] at h; exact Option.noConfusion h
      | some bs =>
        rw [hr] at h
        simp only [Option.some_bind, Option.some_inj] at h
        cases h
        simp [ih bs hr]

theorem axisCoords_get? (l : List (List ℚ × ℚ)) (xs : List ℚ)
    (h : axisCoords l = some xs) (j : ℕ) :
    xs.get? j = (l.get? j).bind (fun p => axisCoord p.1 p.2) := by
  induction l generalizing xs j with
  | nil =>
    simp only [axisCoords, Option.some_inj] at h
    cases h
    simp
  | cons a r ih =>
    simp only [axisCoords] at h
    cases hfa : axisCoord a.1 a.2 with
    | none => rw [hfa] at h; exact Option.noConfusion h
    | some b =>
      rw [hfa] at h
      cases hr : axisCoords r with
      | none => rw [hr] at h; exact Option.noConfusion h
      | some bs =>
        rw [hr] at h
        simp only [Option.some_bind, Option.some_inj] at h
        cases h
        cases j with
        | zero => simp [hfa]
        | succ n => simpa using ih bs hr n

theorem axisCoords_eq_none (l : List (List ℚ × ℚ)) (a : List ℚ × ℚ)
    (ha : a ∈ l) (hfa : axisCoord a.1 a.2 = none) : axisCoords l = none := by
  induction l with
  | nil => simp at ha
  | cons c r ih =>
    simp only [axisCoords]
    rcases List.mem_cons.mp ha with rfl | har
    · rw [hfa]; rfl
    · cases hfc : axisCoord c.1 c.2 with
      | none => rfl
      | some b => rw [ih har]; rfl

theorem axisCoords_isSome (l : List (List ℚ × ℚ))
    (h : ∀ a ∈ l, ∃ b, axisCoord a.1 a.2 = some b) :
    ∃ xs, axisCoords l = some xs := by
  induction l with
  | nil => exact ⟨[], rfl⟩
  | cons a r ih =>
    obtain ⟨b, hb⟩ := h a (List.mem_cons_self a r)
    obtain ⟨bs, hbs⟩ := ih (fun x hx => h x (List.mem_cons_of_mem a hx))
    exact ⟨b :: bs, by simp only [axisCoords]; rw [hb, hbs]; rfl⟩

/-! ### Helper lemmas about zip, membership and params_to_grid -/

theorem mem_of_get? {α : Type} (l : List α) (j : ℕ) (a : α)
    (h : l.get? j = some a) : a ∈ l := by
  rw [List.get?_eq_some] at h
  obtain ⟨hj, rfl⟩ := h
  exact List.get_mem l _ hj

theorem zip_get?_some {α β : Type} (l1 : List α) (l2 : List β) (j : ℕ)
    (a : α) (b : β) (ha : l1.get? j = some a) (hb : l2.get? j = some b) :
    (l1.zip l2).get? j = some (a, b) := by
  induction l1 generalizing l2 j with
  | nil => simp at ha
  | cons x xs ih =>
    cases l2 with
    | nil => simp at hb
    | cons y ys =>
      cases j with
      | zero =>
        simp only [List.get?_cons_zero, Option.some_inj] at ha hb
        simp [List.zip_cons_cons, ha, hb]
      | succ n =>
        simp only [List.get?_cons_succ] at ha hb
        simpa [List.zip_cons_cons] using ih ys n ha hb

theorem axisCoords_none_mem (l : List (List ℚ × ℚ))
    (h : axisCoords l = none) : ∃ a ∈ l, axisCoord a.1 a.2 = none := by
  by_contra hcon
  push_neg at hcon
  obtain ⟨xs, hxs⟩ := axisCoords_isSome l
    (fun a ha => Option.ne_none_iff_exists'.mp (hcon a ha))
  rw [hxs] at h
  exact Option.noConfusion h

theorem errPayload_mem (g : MISTgrid) (targ : List ℚ) (j : ℕ)
    (name : String) (gp : List ℚ) (t : ℚ)
    (hname : g.labels.get? j = some name)
    (hgp : g.gridpoints.get? j = some gp)
    (ht : targ.get? j = some t) :
    (name, t, gp.headI, gp.getLast!) ∈ g.errPayload targ := by
  have hz : (g.gridpoints.zip targ).get? j = some (gp, t) :=
    zip_get?_some _ _ j gp t hgp ht
  have hz2 : (g.labels.zip (g.gridpoints.zip targ)).get? j = some (name, gp, t) :=
    zip_get?_some _ _ j name (gp, t) hname hz
  have hmem : (name, gp, t) ∈ g.labels.zip (g.gridpoints.zip targ) :=
    mem_of_get? _ j _ hz2
  unfold MISTgrid.errPayload
  exact List.mem_map.mpr ⟨(name, gp, t), hmem, rfl⟩

theorem params_to_grid_err_of_ge_max (g : MISTgrid) (targ : List ℚ) (j : ℕ)
    (gp : List ℚ) (t : ℚ)
    (hgp : g.gridpoints.get? j = some gp) (ht : targ.get? j = some t)
    (hs : gp.Pairwise (· < ·)) (hne : gp ≠ []) (hmax : gp.getLast! ≤ t) :
    params_to_grid g targ = Except.error (g.errPayload targ) := by
  have hz : (g.gridpoints.zip targ).get? j = some (gp, t) :=
    zip_get?_some _ _ j gp t hgp ht
  have hmem : (gp, t) ∈ g.gridpoints.zip targ := mem_of_get? _ j _ hz
  have hnone : axisCoords (g.gridpoints.zip targ) = none :=
    axisCoords_eq_none _ (gp, t) hmem
      (axisCoord_eq_none_of_ge_max gp t hs hne hmax)
  unfold params_to_grid
  rw [hnone]

theorem params_to_grid_ok_of_lt_max (g : MISTgrid) (targ : List ℚ)
    (hax : ∀ p ∈ g.gridpoints.zip targ,
      p.1.Pairwise (· < ·) ∧ 2 ≤ p.1.length ∧ p.2 < p.1.getLast!) :
    ∃ xs, params_to_grid g targ = Except.ok xs := by
  obtain ⟨xs, hxs⟩ := axisCoords_isSome (g.gridpoints.zip targ)
    (fun p hp => by
      obtain ⟨h1, h2, h3⟩ := hax p hp
      exact axisCoord_isSome_of_lt_max p.1 p.2 h1 h2 h3)
  refine ⟨xs, ?_⟩
  unfold params_to_grid
  rw [hxs]

theorem weightsFn_none_of_err (g : MISTgrid) (strictness : ℚ) (targ : List ℚ)
    (e : List (String × ℚ × ℚ × ℚ)) (h : params_to_grid g targ = Except.error e) :
    weightsFn g strictness targ = none := by
  unfold weightsFn
  rw [h]

theorem getMIST_eq_none_iff (g : MISTgrid) (strictness mass eep feh : ℚ) :
    getMIST g strictness mass eep feh = none ↔
      weightsFn g strictness [eep, mass, feh] = none := by
  unfold getMIST
  cases weightsFn g strictness [eep, mass, feh] <;> simp

/-! ### Claim C2 -/

/-- C2 (amended): with well-formed sorted axes of at least two gridpoints
each, `params_to_grid` fails with the out-of-grid `ValueError` exactly when
some queried label value is at or above its axis's stored max (values
strictly below the stored min do NOT trigger the error), and the error
diagnostics carry, for the offending axis, its name, its min, its max and
the queried value. -/
theorem c2_out_of_grid_amended (g : MISTgrid) (targ : List ℚ) (j : ℕ)
    (name : String) (gp : List ℚ) (t : ℚ)
    (hax : ∀ p ∈ g.gridpoints.zip targ, p.1.Pairwise (· < ·) ∧ 2 ≤ p.1.length)
    (hname : g.labels.get? j = some name)
    (hgp : g.gridpoints.get? j = some gp)
    (ht : targ.get? j = some t) :
    (params_to_grid g targ = Except.error (g.errPayload targ) ↔
      ∃ p ∈ g.gridpoints.zip targ, p.1.getLast! ≤ p.2) ∧
    (gp.getLast! ≤ t → (name, t, gp.headI, gp.getLast!) ∈ g.errPayload targ) := by
  constructor
  · constructor
    · intro herr
      unfold params_to_grid at herr
      cases hm : axisCoords (g.gridpoints.zip targ) with
      | some xs => rw [hm] at herr; exact Except.noConfusion herr
      | none =>
        obtain ⟨p, hp, hpnone⟩ := axisCoords_none_mem _ hm
        obtain ⟨h1, h2⟩ := hax p hp
        exact ⟨p, hp, (axisCoord_none_iff p.1 p.2 h1 h2).mp hpnone⟩
    · intro ⟨p, hp, hple⟩
      obtain ⟨h1, h2⟩ := hax p hp
      have hne : p.1 ≠ [] := by
        intro hnil; rw [hnil] at h2; simp at h2
      have hnone : axisCoords (g.gridpoints.zip targ) = none :=
        axisCoords_eq_none _ p hp
          (axisCoord_eq_none_of_ge_max p.1 p.2 h1 hne hple)
      unfold params_to_grid
      rw [hnone]
  · intro _
    exact errPayload_mem g targ j name gp t hname hgp ht

/-- C2 counterexample: in the concrete sample grid, the query
`(EEP, mass, feh) = (-1, 0, 0)` has its EEP value strictly below the EEP
axis's stored min `0`, yet `params_to_grid` does not fail: it silently
returns the fractional pixel coordinates `[-4, 0, 0]`.  This refutes the
claim that every query with a value outside `[min(axis), max(axis)]` fails
with the out-of-grid error. -/
theorem c2_counterexample :
    (-1 : ℚ) < (sampleGrid.gridpoints.getD 0 []).headI ∧
    params_to_grid sampleGrid [-1, 0, 0] = Except.ok [-4, 0, 0] ∧
    ∀ e, params_to_grid sampleGrid [-1, 0, 0] ≠ Except.error e := by
  have hok : params_to_grid sampleGrid [-1, 0, 0] = Except.ok [-4, 0, 0] := by
    norm_num [params_to_grid, sampleGrid, axisCoords, axisCoord,
      digitizeLeft, diffs, pyGet?, List.filter_cons, show Int.toNat 2 = 2 from rfl]
  refine ⟨by norm_num [sampleGrid], hok, ?_⟩
  intro e hcon
  rw [hok] at hcon
  exact Except.noConfusion hcon

/-- C2 witness: in the sample grid the query `(3, 0, 0)` (one unit above the
EEP axis max of `2`) triggers the out-of-grid error, the payload names the
EEP axis with min `0`, max `2` and queried value `3`, and indeed some axis
value is at or above its max. -/
theorem c2_witness :
    params_to_grid sampleGrid [3, 0, 0] = Except.error (sampleGrid.errPayload [3, 0, 0]) ∧
    ("EEP", (3 : ℚ), (0 : ℚ), (2 : ℚ)) ∈ sampleGrid.errPayload [3, 0, 0] := by
  have h := c2_out_of_grid_amended sampleGrid [3, 0, 0] 0 "EEP" [0, 1, 2] 3
    (by decide) (by decide) (by decide) (by decide)
  refine ⟨h.1.mpr ⟨([0, 1, 2], 3), by decide, by decide⟩, ?_⟩
  have h2 := h.2 (by decide)
  simpa using h2

/-! ### Claim C9 -/

/-- C9: a query whose value on some axis equals exactly that axis's stored
max lies inside `[min, max]`, yet the right-open digitization puts it in the
last bin, the binwidth lookup at that index raises `IndexError`, so
`params_to_grid` fails with the out-of-grid `ValueError` and `getMIST`
returns the failure sentinel `none`. -/
theorem c9_max_raises (g : MISTgrid) (strictness mass eep feh : ℚ) (j : ℕ)
    (gp : List ℚ) (t : ℚ)
    (hgp : g.gridpoints.get? j = some gp)
    (ht : [eep, mass, feh].get? j = some t)
    (hs : gp.Pairwise (· < ·)) (hne : gp ≠ [])
    (hmax : t = gp.getLast!) :
    (gp.headI ≤ t ∧ t ≤ gp.getLast!) ∧
    (digitizeLeft gp t : ℤ) - 1 = (gp.length : ℤ) - 1 ∧
    pyGet? (diffs gp) ((gp.length : ℤ) - 1) = none ∧
    params_to_grid g [eep, mass, feh] = Except.error (g.errPayload [eep, mass, feh]) ∧
    getMIST g strictness mass eep feh = none := by
  have hmem : gp.getLast! ∈ gp := by
    cases gp with
    | nil => exact absurd rfl hne
    | cons a r => exact getLast!_mem a r
  have hinside : gp.headI ≤ t ∧ t ≤ gp.getLast! := by
    rw [hmax]
    exact ⟨sorted_headI_le gp hs _ hmem, le_refl _⟩
  have hge : gp.getLast! ≤ t := hmax.ge
  have hlen : 1 ≤ gp.length := List.length_pos.mpr hne
  have hdig : (digitizeLeft gp t : ℤ) - 1 = (gp.length : ℤ) - 1 := by
    rw [digitizeLeft_eq_length gp t
      (fun x hx => le_trans (sorted_le_getLast! gp hs x hx) hge)]
  have hpy : pyGet? (diffs gp) ((gp.length : ℤ) - 1) = none := by
    have h1 : ((gp.length : ℤ) - 1) = ((gp.length - 1 : ℕ) : ℤ) := by omega
    rw [h1, pyGet?_ofNat, List.get?_eq_none, diffs_length]
  have herr := params_to_grid_err_of_ge_max g [eep, mass, feh] j gp t hgp ht hs hne hge
  refine ⟨hinside, hdig, hpy, herr, ?_⟩
  rw [getMIST_eq_none_iff]
  exact weightsFn_none_of_err g strictness [eep, mass, feh] _ herr

/-- C9 witness: in the sample grid, querying `eep = 2` (exactly the EEP axis
max) fails the pixel conversion and makes `getMIST` return `none`. -/
theorem c9_witness :
    params_to_grid sampleGrid [2, 0, 0] = Except.error (sampleGrid.errPayload [2, 0, 0]) ∧
    getMIST sampleGrid 0 0 2 0 = none := by
  have h := c9_max_raises sampleGrid 0 0 2 0 0 [0, 1, 2] 2
    (by decide) (by decide) (by decide) (by decide) (by decide)
  exact ⟨h.2.2.2.1, h.2.2.2.2⟩

/-! ### Claim C10 -/

/-- C10: a query value strictly below its axis's stored min does not raise
the out-of-grid diagnostic: the bin index is `-1`, Python negative indexing
resolves it to the last gridpoint and last binwidth, and a fractional pixel
coordinate below zero is returned silently. -/
theorem c10_below_min_silent (g : MISTgrid) (targ : List ℚ) (j : ℕ)
    (gp : List ℚ) (t : ℚ)
    (hax : ∀ p ∈ g.gridpoints.zip targ,
      p.1.Pairwise (· < ·) ∧ 2 ≤ p.1.length ∧ p.2 < p.1.getLast!)
    (hgp : g.gridpoints.get? j = some gp) (ht : targ.get? j = some t)
    (hmin : t < gp.headI) :
    ∃ xs, params_to_grid g targ = Except.ok xs ∧
      xs.get? j = some (-1 + (t - gp.getLast!) / (diffs gp).getLast!) ∧
      -1 + (t - gp.getLast!) / (diffs gp).getLast! < 0 := by
  obtain ⟨xs, hxs⟩ := params_to_grid_ok_of_lt_max g targ hax
  have hz : (g.gridpoints.zip targ).get? j = some (gp, t) :=
    zip_get?_some _ _ j gp t hgp ht
  have hmem : (gp, t) ∈ g.gridpoints.zip targ := mem_of_get? _ j _ hz
  obtain ⟨h1x, h2x, h3x⟩ := hax (gp, t) hmem
  have h1 : gp.Pairwise (· < ·) := h1x
  have h2 : 2 ≤ gp.length := h2x
  have h3 : t < gp.getLast! := h3x
  have hmapm : axisCoords (g.gridpoints.zip targ) = some xs := by
    unfold params_to_grid at hxs
    cases hm : axisCoords (g.gridpoints.zip targ) with
    | some ys =>
      rw [hm] at hxs
      cases hxs
      rfl
    | none => rw [hm] at hxs; exact Except.noConfusion hxs
  have hget : xs.get? j = some (-1 + (t - gp.getLast!) / (diffs gp).getLast!) := by
    rw [axisCoords_get? _ _ hmapm j, hz]
    simp only [Option.some_bind]
    exact axisCoord_below_min gp t h1 h2 hmin
  have hneg : -1 + (t - gp.getLast!) / (diffs gp).getLast! < 0 := by
    have hdne : diffs gp ≠ [] := by
      have := diffs_length gp
      intro hcon
      rw [hcon] at this
      simp at this
      omega
    have hbw : 0 < (diffs gp).getLast! := by
      refine diffs_pos gp h1 _ ?_
      cases hd : diffs gp with
      | nil => exact absurd hd hdne
      | cons a r => rw [← hd]; rw [hd]; exact getLast!_mem a r
    have hnum : t - gp.getLast! < 0 := by
      have hh : gp.headI ≤ gp.getLast! := by
        refine sorted_le_getLast! gp h1 _ ?_
        cases gp with
        | nil => simp at h2
        | cons a r => simp
      linarith
    have : (t - gp.getLast!) / (diffs gp).getLast! < 0 := div_neg_of_neg_of_pos hnum hbw
    linarith
  exact ⟨xs, hxs, hget, hneg⟩

/-- C10 witness: in the sample grid, the query `(-1, 0, 0)` (EEP one unit
below the axis min) silently converts to pixel coordinates whose EEP
component `-1 + (-1 - 2)/1 = -4` is below zero. -/
theorem c10_witness :
    ∃ xs, params_to_grid sampleGrid [-1, 0, 0] = Except.ok xs ∧
      xs.get? 0 = some (-1 + ((-1) - ([0, 1, 2] : List ℚ).getLast!) / (diffs [0, 1, 2]).getLast!) ∧
      -1 + ((-1) - ([0, 1, 2] : List ℚ).getLast!) / (diffs [0, 1, 2]).getLast! < 0 :=
  c10_below_min_silent sampleGrid [-1, 0, 0] 0 [0, 1, 2] (-1)
    (by decide) (by decide) (by decide) (by decide)

/-! ### Claim C3 -/

/-- C3: the per-axis factor computed by `linear_weights` at displacement
`d = x - v` equals `1 - d` when `0 ≤ d` and `1 + d` when `d < 0`, is forced
to zero whenever `|d| ≥ 1`, and the overall weight of each vertex is the
product of its per-axis factors. -/
theorem c3_linear_weights_rule (g : MISTgrid) (ks : List ℕ) (xtarg : List ℚ)
    (d : ℚ) :
    (axisWeight d = if 1 ≤ |d| then 0 else if 0 ≤ d then 1 - d else 1 + d) ∧
    linear_weights g ks xtarg =
      ks.map (fun k => ((xtarg.zip (g.X.getD k [])).map
        (fun p => axisWeight (p.1 - (p.2 : ℚ)))).prod) :=
  ⟨axisWeight_eq_cases d, rfl⟩

/-! ### Claim C6 -/

/-- C6: the neighbor query returns exactly the indices of the stored
vertices whose integer pixel coordinate lies within Euclidean distance
`sqrt(ndim)` of the fractional query coordinate, and the returned index list
is sorted in (strictly) ascending order. -/
theorem c6_knearest_exact (g : MISTgrid) (xtarg : List ℚ) (i : ℕ) :
    (i ∈ knearest_inds g xtarg ↔
      i < g.libparams.length ∧
      Real.sqrt ((sqdist xtarg (g.X.getD i []) : ℚ) : ℝ) ≤
        Real.sqrt (g.ndim : ℝ)) ∧
    List.Sorted (· < ·) (knearest_inds g xtarg) := by
  constructor
  · unfold knearest_inds
    rw [List.mem_filter, List.mem_range]
    have hXlen : g.X.length = g.libparams.length := List.length_map _ _
    have hsq : Real.sqrt ((sqdist xtarg (g.X.getD i []) : ℚ) : ℝ) ≤
        Real.sqrt (g.ndim : ℝ) ↔
        sqdist xtarg (g.X.getD i []) ≤ (g.ndim : ℚ) := by
      rw [Real.sqrt_le_sqrt_iff (Nat.cast_nonneg _)]
      constructor
      · intro h; exact_mod_cast h
      · intro h; exact_mod_cast h
    rw [hXlen, hsq]
    simp
  · exact List.Pairwise.filter _ (List.sorted_lt_range _)

/-! ### Helper lemmas for np.gradient and the age weights -/

theorem gradMid_nonneg (prev cur : ℚ) (l : List ℚ)
    (h1 : prev ≤ cur) (h2 : List.Chain' (· ≤ ·) (cur :: l)) :
    ∀ x ∈ gradMid prev cur l, 0 ≤ x := by
  induction l generalizing prev cur with
  | nil =>
    intro x hx
    simp only [gradMid, List.mem_singleton] at hx
    subst hx
    linarith
  | cons next rest ih =>
    intro x hx
    rw [List.chain'_cons] at h2
    simp only [gradMid, List.mem_cons] at hx
    rcases hx with rfl | hxr
    · have h3 : cur ≤ next := h2.1
      linarith
    · exact ih cur next h2.1 h2.2 x hxr

theorem npGradient_nonneg (a : List ℚ) (h : List.Chain' (· ≤ ·) a) :
    ∀ x ∈ npGradient a, 0 ≤ x := by
  match a with
  | [] => intro x hx; simp [npGradient] at hx
  | [_] => intro x hx; simp [npGradient] at hx
  | a0 :: a1 :: rest =>
    intro x hx
    rw [List.chain'_cons] at h
    simp only [npGradient, List.mem_cons] at hx
    rcases hx with rfl | hxr
    · linarith [h.1]
    · exact gradMid_nonneg a0 a1 rest h.1 h.2 x hxr

theorem list_sum_map_div (l : List ℚ) (s : ℚ) :
    (l.map (fun x => x / s)).sum = l.sum / s := by
  induction l with
  | nil => simp
  | cons a r ih => simp [ih, add_div]

/-! ### Claim C8 -/

/-- C8: for any `(initial_mass, initial_[Fe/H])` group whose un-logged ages
(`tenPow` stands for the strictly monotone float map `10.0 ** ·`) are
nondecreasing with a nonzero gradient sum, the per-row age weights assigned
by `addagewgt` — the `np.gradient` of the un-logged ages over the group,
normalized by the gradient sum — sum to exactly 1, and are strictly
positive at every row where the local age gradient is nonzero. -/
theorem c8_age_weights (tenPow : ℚ → ℚ) (g : MISTgrid) (ageInd : ℕ) (m z : ℚ)
    (hchain : List.Chain' (· ≤ ·) ((groupLogAges g ageInd m z).map tenPow))
    (hsum : (npGradient ((groupLogAges g ageInd m z).map tenPow)).sum ≠ 0) :
    (addagewgtGroup tenPow g ageInd m z).sum = 1 ∧
    ∀ i, (npGradient ((groupLogAges g ageInd m z).map tenPow)).getD i 0 ≠ 0 →
      0 < (addagewgtGroup tenPow g ageInd m z).getD i 0 := by
  have hnn : ∀ x ∈ npGradient ((groupLogAges g ageInd m z).map tenPow), 0 ≤ x :=
    npGradient_nonneg _ hchain
  have hspos : 0 < (npGradient ((groupLogAges g ageInd m z).map tenPow)).sum :=
    lt_of_le_of_ne (List.sum_nonneg hnn) (Ne.symm hsum)
  constructor
  · unfold addagewgtGroup ageWeights
    rw [list_sum_map_div]
    exact div_self hsum
  · intro i hi
    unfold addagewgtGroup ageWeights
    rw [List.getD_eq_getD_get?, List.get?_map]
    rw [List.getD_eq_getD_get?] at hi
    cases hg : (npGradient ((groupLogAges g ageInd m z).map tenPow)).get? i with
    | none => rw [hg] at hi; simp at hi
    | some v =>
      rw [hg] at hi
      simp only [Option.getD_some] at hi
      have hv : v ∈ npGradient ((groupLogAges g ageInd m z).map tenPow) :=
        mem_of_get? _ i v hg
      have hvpos : 0 < v := lt_of_le_of_ne (hnn v hv) (Ne.symm hi)
      simp only [Option.map_some', Option.getD_some]
      exact div_pos hvpos hspos

/-- C8 witness: in the sample grid, the `(mass, feh) = (0, 0)` group has
rows `0, 4, 8` with (un-logged, via the identity instantiation of the
monotone map) ages `[10, 14, 18]`; the gradient-based weights sum to 1 and
are strictly positive at every row. -/
theorem c8_witness :
    (addagewgtGroup (fun q => q) sampleGrid 0 0 0).sum = 1 ∧
    ∀ i, (npGradient ((groupLogAges sampleGrid 0 0 0).map (fun q => q))).getD i 0 ≠ 0 →
      0 < (addagewgtGroup (fun q => q) sampleGrid 0 0 0).getD i 0 := by
  have hgl : groupLogAges sampleGrid 0 0 0 = [10, 14, 18] := by decide
  refine c8_age_weights (fun q => q) sampleGrid 0 0 0 ?_ ?_
  · rw [hgl]; norm_num [List.chain'_cons]
  · rw [hgl]; norm_num [npGradient, gradMid]

/-! ### Helper lemmas for the weights pipeline -/

theorem zip_map_filter_pos (inds0 : List ℕ) (f : ℕ → ℚ) :
    ((inds0.zip (inds0.map f)).filter (fun p => 0 < p.2)) =
      (inds0.filter (fun i => 0 < f i)).map (fun i => (i, f i)) := by
  induction inds0 with
  | nil => rfl
  | cons a r ih =>
    simp only [List.map_cons, List.zip_cons_cons, List.filter_cons]
    by_cases h : 0 < f a
    · simp [h, ih]
    · simp [h, ih]

theorem map_snd_filter_zip (l : List ℕ) (f : ℕ → ℚ) :
    ((l.zip (l.map f)).filter (fun p => 0 < p.2)).map (fun p => p.2)
      = (l.map f).filter (fun x => 0 < x) := by
  induction l with
  | nil => rfl
  | cons a r ih =>
    simp only [List.map_cons, List.zip_cons_cons, List.filter_cons]
    by_cases h : 0 < f a
    · simp [h, ih]
    · simp [h, ih]

theorem map_div_filter_zip (l : List ℕ) (f : ℕ → ℚ) (S : ℚ) :
    ((l.zip (l.map f)).filter (fun p => 0 < p.2)).map (fun p => p.2 / S)
      = ((l.map f).filter (fun x => 0 < x)).map (fun x => x / S) := by
  induction l with
  | nil => rfl
  | cons a r ih =>
    simp only [List.map_cons, List.zip_cons_cons, List.filter_cons]
    by_cases h : 0 < f a
    · simp [h, ih]
    · simp [h, ih]

theorem map_fst_filter_zip (l : List ℕ) (f : ℕ → ℚ) :
    ((l.zip (l.map f)).filter (fun p => 0 < p.2)).map (fun p => p.1)
      = l.filter (fun i => 0 < f i) := by
  induction l with
  | nil => rfl
  | cons a r ih =>
    simp only [List.map_cons, List.zip_cons_cons, List.filter_cons]
    by_cases h : 0 < f a
    · simp [h, ih]
    · simp [h, ih]

theorem sum_filter_pos_of_nonneg (l : List ℚ) (h : ∀ x ∈ l, 0 ≤ x) :
    (l.filter (fun x => 0 < x)).sum = l.sum := by
  induction l with
  | nil => rfl
  | cons a r ih =>
    have hr : ∀ x ∈ r, 0 ≤ x := fun x hx => h x (List.mem_cons_of_mem a hx)
    rw [List.filter_cons]
    by_cases ha : 0 < a
    · simp [ha, ih hr]
    · have ha0 : a = 0 :=
        le_antisymm (not_lt.mp ha) (h a (List.mem_cons_self a r))
      simp [ha, ih hr, ha0]

theorem linear_weights_nonneg (g : MISTgrid) (ks : List ℕ) (xtarg : List ℚ) :
    ∀ x ∈ linear_weights g ks xtarg, 0 ≤ x := by
  intro x hx
  obtain ⟨k, _, rfl⟩ := List.mem_map.mp hx
  exact vertexWeight_nonneg _ _

theorem weightsFn_some_struct (g : MISTgrid) (strictness : ℚ) (targ : List ℚ)
    (inds : List ℕ) (w : List ℚ)
    (h : weightsFn g strictness targ = some (inds, w)) :
    ∃ xtarg, params_to_grid g targ = Except.ok xtarg ∧
      knearest_inds g xtarg ≠ [] ∧
      strictness < (linear_weights g (knearest_inds g xtarg) xtarg).sum ∧
      inds = (knearest_inds g xtarg).filter
        (fun i => 0 < vertexWeight xtarg (g.X.getD i [])) ∧
      w = ((linear_weights g (knearest_inds g xtarg) xtarg).filter (fun x => 0 < x)).map
        (fun x => x /
          ((linear_weights g (knearest_inds g xtarg) xtarg).filter (fun y => 0 < y)).sum) := by
  unfold weightsFn at h
  cases hp : params_to_grid g targ with
  | error e => rw [hp] at h; exact Option.noConfusion h
  | ok xtarg =>
    rw [hp] at h
    simp only [] at h
    by_cases hnil : knearest_inds g xtarg = []
    · rw [if_pos hnil] at h; exact Option.noConfusion h
    · rw [if_neg hnil] at h
      by_cases hsum : (linear_weights g (knearest_inds g xtarg) xtarg).sum ≤ strictness
      · rw [if_pos hsum] at h; exact Option.noConfusion h
      · rw [if_neg hsum] at h
        simp only [Option.some_inj, Prod.mk.injEq] at h
        obtain ⟨h1, h2⟩ := h
        refine ⟨xtarg, rfl, hnil, not_le.mp hsum, ?_, ?_⟩
        · rw [← h1]
          unfold linear_weights
          rw [map_fst_filter_zip]
        · rw [← h2]
          unfold linear_weights
          rw [map_snd_filter_zip, map_div_filter_zip]

/-! ### Claim C4 -/

/-- C4: for a query whose pixel conversion succeeds, the evaluation fails —
returning the distinguishable sentinel `none` rather than any vector —
exactly when the neighbor set returned by the spatial index is empty or the
sum of the computed weights is not strictly greater than the strictness
threshold; otherwise it returns a successful result. -/
theorem c4_failure_iff (g : MISTgrid) (strictness mass eep feh : ℚ)
    (xtarg : List ℚ)
    (hok : params_to_grid g [eep, mass, feh] = Except.ok xtarg) :
    getMIST g strictness mass eep feh = none ↔
      knearest_inds g xtarg = [] ∨
      (linear_weights g (knearest_inds g xtarg) xtarg).sum ≤ strictness := by
  rw [getMIST_eq_none_iff]
  unfold weightsFn
  rw [hok]
  simp only []
  by_cases hnil : knearest_inds g xtarg = []
  · rw [if_pos hnil]
    simp [hnil]
  · rw [if_neg hnil]
    by_cases hsum : (linear_weights g (knearest_inds g xtarg) xtarg).sum ≤ strictness
    · rw [if_pos hsum]
      simp [hnil, hsum]
    · rw [if_neg hsum]
      simp [hnil, hsum]

/-- C4 witness: for the in-grid query `(0,0,0)` on the mini grid the
neighbor set is nonempty and the weight sum is positive, and correspondingly
`getMIST` does not return the failure sentinel. -/
theorem c4_witness :
    getMIST miniGrid 0 0 0 0 = none ↔
      knearest_inds miniGrid [0, 0, 0] = [] ∨
      (linear_weights miniGrid (knearest_inds miniGrid [0, 0, 0]) [0, 0, 0]).sum ≤ 0 :=
  c4_failure_iff miniGrid 0 0 0 0 [0, 0, 0]
    (by norm_num [params_to_grid, miniGrid, axisCoords, axisCoord,
      digitizeLeft, diffs, pyGet?, List.filter_cons])

/-! ### Claim C5 -/

/-- C5: for every successful evaluation (nonnegative strictness threshold),
the retained post-filter weights are all strictly positive with a strictly
positive sum, and the returned weights are those renormalized by their sum,
summing to exactly 1 (hence within any tolerance) and all strictly
positive. -/
theorem c5_weight_normalization (g : MISTgrid) (strictness : ℚ)
    (targ : List ℚ) (inds : List ℕ) (w : List ℚ) (hstrict : 0 ≤ strictness)
    (h : weightsFn g strictness targ = some (inds, w)) :
    ∃ fw : List ℚ, (∀ x ∈ fw, 0 < x) ∧ 0 < fw.sum ∧
      w = fw.map (fun x => x / fw.sum) ∧ w.sum = 1 ∧ ∀ x ∈ w, 0 < x := by
  obtain ⟨xtarg, hok, hnil, hsum, hinds, hw⟩ :=
    weightsFn_some_struct g strictness targ inds w h
  refine ⟨(linear_weights g (knearest_inds g xtarg) xtarg).filter (fun x => 0 < x),
    ?_, ?_, ?_, ?_, ?_⟩
  · intro x hx
    have := (List.mem_filter.mp hx).2
    simpa using this
  · rw [sum_filter_pos_of_nonneg _ (linear_weights_nonneg g _ xtarg)]
    exact lt_of_le_of_lt hstrict hsum
  · exact hw
  · have hspos : 0 < ((linear_weights g (knearest_inds g xtarg) xtarg).filter
        (fun x => 0 < x)).sum := by
      rw [sum_filter_pos_of_nonneg _ (linear_weights_nonneg g _ xtarg)]
      exact lt_of_le_of_lt hstrict hsum
    rw [hw, list_sum_map_div]
    exact div_self (ne_of_gt hspos)
  · intro x hx
    rw [hw] at hx
    obtain ⟨y, hy, rfl⟩ := List.mem_map.mp hx
    have hypos : 0 < y := by
      have := (List.mem_filter.mp hy).2
      simpa using this
    have hspos : 0 < ((linear_weights g (knearest_inds g xtarg) xtarg).filter
        (fun y => 0 < y)).sum := by
      rw [sum_filter_pos_of_nonneg _ (linear_weights_nonneg g _ xtarg)]
      exact lt_of_le_of_lt hstrict hsum
    exact div_pos hypos hspos

/-- C5 witness: the successful evaluation of `(0,0,0)` on the mini grid has
retained pre-normalization weights `[1]` (positive, positive sum) and
returned weights `[1]` summing to 1. -/
theorem c5_witness :
    ∃ fw : List ℚ, (∀ x ∈ fw, 0 < x) ∧ 0 < fw.sum ∧
      ([(1 : ℚ)] = fw.map (fun x => x / fw.sum)) ∧
      ([(1 : ℚ)]).sum = 1 ∧ ∀ x ∈ [(1 : ℚ)], 0 < x :=
  c5_weight_normalization miniGrid 0 [0, 0, 0] [0] [1] (le_refl 0)
    (by
      have hne : ¬([0, 1] : List ℕ) = [] := by decide
      norm_num [hne, weightsFn, params_to_grid, miniGrid, axisCoords, axisCoord,
        digitizeLeft, diffs, pyGet?, knearest_inds, MISTgrid.X, MISTgrid.ndim,
        sqdist, digitizeRight, linear_weights, vertexWeight, axisWeight,
        List.filter_cons, List.range_succ])

/-! ### Claim C7 -/

theorem filter_map_comm (l : List ℕ) (f : ℕ → ℚ) :
    (l.map f).filter (fun x => 0 < x) = (l.filter (fun i => 0 < f i)).map f := by
  induction l with
  | nil => rfl
  | cons a r ih =>
    simp only [List.map_cons, List.filter_cons]
    by_cases h : 0 < f a
    · simp [h, ih]
    · simp [h, ih]

theorem weightsFn_wsum_one (g : MISTgrid) (strictness : ℚ) (targ : List ℚ)
    (inds : List ℕ) (w : List ℚ) (hstrict : 0 ≤ strictness)
    (h : weightsFn g strictness targ = some (inds, w)) :
    (∀ x ∈ w, 0 < x) ∧ w.sum = 1 ∧ inds.length = w.length := by
  obtain ⟨xtarg, hok, hnil, hsum, hinds, hw⟩ :=
    weightsFn_some_struct g strictness targ inds w h
  have hspos : 0 < ((linear_weights g (knearest_inds g xtarg) xtarg).filter
      (fun x => 0 < x)).sum := by
    rw [sum_filter_pos_of_nonneg _ (linear_weights_nonneg g _ xtarg)]
    exact lt_of_le_of_lt hstrict hsum
  refine ⟨?_, ?_, ?_⟩
  · intro x hx
    rw [hw] at hx
    obtain ⟨y, hy, rfl⟩ := List.mem_map.mp hx
    have hypos : 0 < y := by
      have := (List.mem_filter.mp hy).2
      simpa using this
    exact div_pos hypos hspos
  · rw [hw, list_sum_map_div]
    exact div_self (ne_of_gt hspos)
  · rw [hinds, hw]
    unfold linear_weights
    rw [filter_map_comm, List.length_map, List.length_map]

theorem range_map_getD (n : ℕ) (f : ℕ → ℚ) (j : ℕ) (d : ℚ) (hj : j < n) :
    ((List.range n).map f).getD j d = f j := by
  have hjlen : j < ((List.range n).map f).length := by
    rw [List.length_map, List.length_range]
    exact hj
  rw [List.getD_eq_getElem _ _ hjlen, List.getElem_map, List.getElem_range]

/-- C7: every successful evaluation returns the query labels followed by
the interpolated outputs, and each interpolated output quantity lies within
any interval `[lo, hi]` that contains that quantity over the retained
neighbor set — in particular within its min and max there — because the
result is a convex combination (positive weights summing to 1) of the
stored output vectors. -/
theorem c7_convex_bounds (g : MISTgrid) (strictness mass eep feh : ℚ)
    (inds : List ℕ) (w : List ℚ) (hstrict : 0 ≤ strictness)
    (h : weightsFn g strictness [eep, mass, feh] = some (inds, w)) :
    getMIST g strictness mass eep feh =
      some ([eep, mass, feh] ++ dotCols g.output g.npred inds w) ∧
    ∀ j, j < g.npred → ∀ lo hi,
      (∀ i ∈ inds, lo ≤ (g.output.getD i []).getD j 0 ∧
        (g.output.getD i []).getD j 0 ≤ hi) →
      lo ≤ (dotCols g.output g.npred inds w).getD j 0 ∧
        (dotCols g.output g.npred inds w).getD j 0 ≤ hi := by
  obtain ⟨hwpos, hwsum, hlen⟩ :=
    weightsFn_wsum_one g strictness [eep, mass, feh] inds w hstrict h
  constructor
  · unfold getMIST
    rw [h]
  · intro j hj lo hi hbound
    have hdc : (dotCols g.output g.npred inds w).getD j 0 =
        ((inds.zip w).map (fun p => p.2 * ((g.output.getD p.1 []).getD j 0))).sum := by
      unfold dotCols
      rw [range_map_getD _ _ j 0 hj]
    have hsnd : (inds.zip w).map (fun p => p.2) = w :=
      List.map_snd_zip inds w (le_of_eq hlen.symm)
    have hmemfacts : ∀ p ∈ inds.zip w, p.1 ∈ inds ∧ p.2 ∈ w := by
      intro p hp
      obtain ⟨a, b⟩ := p
      exact List.of_mem_zip hp
    constructor
    · rw [hdc]
      have hle : ((inds.zip w).map (fun p => p.2 * lo)).sum ≤
          ((inds.zip w).map (fun p => p.2 * ((g.output.getD p.1 []).getD j 0))).sum := by
        refine List.sum_le_sum (fun p hp => ?_)
        obtain ⟨hp1, hp2⟩ := hmemfacts p hp
        exact mul_le_mul_of_nonneg_left ((hbound p.1 hp1).1) (le_of_lt (hwpos p.2 hp2))
      have heq : ((inds.zip w).map (fun p => p.2 * lo)).sum = lo := by
        rw [List.sum_map_mul_right, hsnd, hwsum, one_mul]
      linarith
    · rw [hdc]
      have hle : ((inds.zip w).map (fun p => p.2 * ((g.output.getD p.1 []).getD j 0))).sum ≤
          ((inds.zip w).map (fun p => p.2 * hi)).sum := by
        refine List.sum_le_sum (fun p hp => ?_)
        obtain ⟨hp1, hp2⟩ := hmemfacts p hp
        exact mul_le_mul_of_nonneg_left ((hbound p.1 hp1).2) (le_of_lt (hwpos p.2 hp2))
      have heq : ((inds.zip w).map (fun p => p.2 * hi)).sum = hi := by
        rw [List.sum_map_mul_right, hsnd, hwsum, one_mul]
      linarith

/-- C7 witness: the successful evaluation of `(0,0,0)` on the mini grid
returns the query labels followed by the interpolated output, which is
bounded by any interval containing the retained neighbors' outputs. -/
theorem c7_witness :
    getMIST miniGrid 0 0 0 0 =
      some ([0, 0, 0] ++ dotCols miniGrid.output miniGrid.npred [0] [1]) ∧
    ∀ j, j < miniGrid.npred → ∀ lo hi,
      (∀ i ∈ [0], lo ≤ (miniGrid.output.getD i []).getD j 0 ∧
        (miniGrid.output.getD i []).getD j 0 ≤ hi) →
      lo ≤ (dotCols miniGrid.output miniGrid.npred [0] [1]).getD j 0 ∧
        (dotCols miniGrid.output miniGrid.npred [0] [1]).getD j 0 ≤ hi :=
  c7_convex_bounds miniGrid 0 0 0 0 [0] [1] (le_refl 0)
    (by
      have hne : ¬([0, 1] : List ℕ) = [] := by decide
      norm_num [hne, weightsFn, params_to_grid, miniGrid, axisCoords, axisCoord,
        digitizeLeft, diffs, pyGet?, knearest_inds, MISTgrid.X, MISTgrid.ndim,
        sqdist, digitizeRight, linear_weights, vertexWeight, axisWeight,
        List.filter_cons, List.range_succ])

/-! ### Claim C1 -/

theorem filter_eq_singleton (l : List ℕ) (p : ℕ → Bool) (k : ℕ)
    (hnd : l.Pairwise (· ≠ ·)) (hmem : k ∈ l)
    (hp : ∀ i ∈ l, (p i = true ↔ i = k)) :
    l.filter p = [k] := by
  induction l with
  | nil => simp at hmem
  | cons a r ih =>
    rw [List.pairwise_cons] at hnd
    rw [List.filter_cons]
    rcases List.mem_cons.mp hmem with rfl | hmr
    · have hpa : p k = true := (hp k (List.mem_cons_self k r)).mpr rfl
      rw [hpa]
      simp only [if_true]
      have hrnil : r.filter p = [] := by
        rw [List.filter_eq_nil_iff]
        intro b hb hpb
        exact hnd.1 b hb ((hp b (List.mem_cons_of_mem k hb)).mp hpb).symm
      rw [hrnil]
    · have hak : a ≠ k := hnd.1 k hmr
      have hpa : p a = false := by
        cases h2 : p a with
        | false => rfl
        | true => exact absurd ((hp a (List.mem_cons_self a r)).mp h2) hak
      rw [hpa]
      simp only [Bool.false_eq_true, if_false]
      exact ih hnd.2 hmr (fun i hi => hp i (List.mem_cons_of_mem a hi))

theorem range_map_getD_self (r : List ℚ) :
    (List.range r.length).map (fun j => r.getD j 0) = r := by
  refine List.ext_getElem ?_ ?_
  · simp
  · intro n h1 h2
    have h3 : n < (List.range r.length).length := by simpa using h2
    rw [List.getElem_map]
    rw [List.getElem_range]
    exact List.getD_eq_getElem r 0 h2

theorem X_getD_row (g : MISTgrid) (k : ℕ) (row : List ℚ)
    (hrow : g.libparams.get? k = some row) :
    g.X.getD k [] =
      (g.gridpoints.zip row).map (fun p => (digitizeRight p.1 p.2 : ℤ)) := by
  unfold MISTgrid.X
  rw [List.getD_eq_getD_get?, List.get?_map, hrow]
  rfl

/-- C1 (amended): for every stored grid vertex whose label coordinates are
all strictly below their axis maxima and whose pixel coordinate is not
shared with another row, querying `getMIST` at the vertex's label
coordinates retains exactly that vertex with renormalized weight 1 (all
other neighbors' weights are 0 and are filtered out), and returns the
query labels followed by exactly the vertex's stored output vector. -/
theorem c1_vertex_exact_amended (g : MISTgrid) (mass eep feh : ℚ) (k : ℕ)
    (gp0 gp1 gp2 : List ℚ) (p0 p1 p2 : ℕ) (outk : List ℚ)
    (hgps : g.gridpoints = [gp0, gp1, gp2])
    (hs0 : gp0.Pairwise (· < ·)) (hs1 : gp1.Pairwise (· < ·))
    (hs2 : gp2.Pairwise (· < ·))
    (hg0 : gp0.get? p0 = some eep) (hl0 : p0 + 1 < gp0.length)
    (hg1 : gp1.get? p1 = some mass) (hl1 : p1 + 1 < gp1.length)
    (hg2 : gp2.get? p2 = some feh) (hl2 : p2 + 1 < gp2.length)
    (hrow : g.libparams.get? k = some [eep, mass, feh])
    (hrows : ∀ row ∈ g.libparams, row.length = 3)
    (hout : g.output.get? k = some outk) (houtlen : outk.length = g.npred)
    (hinj : ∀ j, j < g.libparams.length → j ≠ k →
      g.X.getD j [] ≠ g.X.getD k []) :
    weightsFn g 0 [eep, mass, feh] = some ([k], [1]) ∧
    getMIST g 0 mass eep feh = some ([eep, mass, feh] ++ outk) := by
  -- pixel conversion lands exactly on the vertex's integer coordinates
  have hax : axisCoords [(gp0, eep), (gp1, mass), (gp2, feh)] =
      some [(p0 : ℚ), (p1 : ℚ), (p2 : ℚ)] := by
    simp only [axisCoords]
    rw [axisCoord_at_mem gp0 eep p0 hs0 hg0 hl0,
      axisCoord_at_mem gp1 mass p1 hs1 hg1 hl1,
      axisCoord_at_mem gp2 feh p2 hs2 hg2 hl2]
    rfl
  have hptg : params_to_grid g [eep, mass, feh] =
      Except.ok [(p0 : ℚ), (p1 : ℚ), (p2 : ℚ)] := by
    unfold params_to_grid
    rw [hgps]
    rw [show ([gp0, gp1, gp2].zip [eep, mass, feh]) =
      [(gp0, eep), (gp1, mass), (gp2, feh)] from rfl]
    rw [hax]
  -- the stored pixel coordinate of row k
  have hXk : g.X.getD k [] = [(p0 : ℤ), (p1 : ℤ), (p2 : ℤ)] := by
    rw [X_getD_row g k [eep, mass, feh] hrow, hgps]
    rw [show ([gp0, gp1, gp2].zip [eep, mass, feh]) =
      [(gp0, eep), (gp1, mass), (gp2, feh)] from rfl]
    simp only [List.map_cons, List.map_nil]
    rw [digitizeRight_at_mem gp0 eep p0 hs0 hg0,
      digitizeRight_at_mem gp1 mass p1 hs1 hg1,
      digitizeRight_at_mem gp2 feh p2 hs2 hg2]
  have hcast : ([(p0 : ℚ), (p1 : ℚ), (p2 : ℚ)] : List ℚ) =
      ([(p0 : ℤ), (p1 : ℤ), (p2 : ℤ)] : List ℤ).map (fun n : ℤ => (n : ℚ)) := by
    simp
  have hklen : k < g.libparams.length := by
    rw [List.get?_eq_some] at hrow
    exact hrow.1
  have hXlen : g.X.length = g.libparams.length := List.length_map _ _
  -- the vertex is among the returned neighbors
  have hkmem : k ∈ knearest_inds g [(p0 : ℚ), (p1 : ℚ), (p2 : ℚ)] := by
    unfold knearest_inds
    rw [List.mem_filter, List.mem_range, hXlen]
    refine ⟨hklen, ?_⟩
    have h0 : sqdist [(p0 : ℚ), (p1 : ℚ), (p2 : ℚ)] (g.X.getD k []) = 0 := by
      rw [hXk]
      simp [sqdist]
    rw [decide_eq_true_eq, h0]
    exact Nat.cast_nonneg _
  -- the vertex's weight is 1, every other row's weight is 0
  have hfk : vertexWeight [(p0 : ℚ), (p1 : ℚ), (p2 : ℚ)] (g.X.getD k []) = 1 := by
    rw [hXk, hcast]
    exact vertexWeight_self _
  have hfother : ∀ i, i < g.libparams.length → i ≠ k →
      vertexWeight [(p0 : ℚ), (p1 : ℚ), (p2 : ℚ)] (g.X.getD i []) = 0 := by
    intro i hilen hik
    obtain ⟨rowi, hrowi⟩ : ∃ rowi, g.libparams.get? i = some rowi :=
      ⟨_, List.get?_eq_get hilen⟩
    have hXi : g.X.getD i [] =
        (g.gridpoints.zip rowi).map (fun p => (digitizeRight p.1 p.2 : ℤ)) :=
      X_getD_row g i rowi hrowi
    have hXilen : (g.X.getD i []).length = 3 := by
      rw [hXi, List.length_map, List.length_zip, hgps]
      rw [hrows rowi (mem_of_get? _ i rowi hrowi)]
      rfl
    have hne : ([(p0 : ℤ), (p1 : ℤ), (p2 : ℤ)] : List ℤ) ≠ g.X.getD i [] := by
      intro hcon
      exact hinj i hilen hik (by rw [hXk, hcon])
    rw [hcast]
    exact vertexWeight_ne _ _ (by rw [hXilen]; rfl) hne
  -- assemble the weights call
  have hknd : (knearest_inds g [(p0 : ℚ), (p1 : ℚ), (p2 : ℚ)]).Pairwise (· ≠ ·) := by
    refine List.Pairwise.imp (fun hlt => Nat.ne_of_lt hlt) ?_
    exact List.Pairwise.filter _ (List.sorted_lt_range _)
  have hmemlen : ∀ i ∈ knearest_inds g [(p0 : ℚ), (p1 : ℚ), (p2 : ℚ)],
      i < g.libparams.length := by
    intro i hi
    unfold knearest_inds at hi
    rw [List.mem_filter, List.mem_range, hXlen] at hi
    exact hi.1
  have hfilter : (knearest_inds g [(p0 : ℚ), (p1 : ℚ), (p2 : ℚ)]).filter
      (fun i => 0 < vertexWeight [(p0 : ℚ), (p1 : ℚ), (p2 : ℚ)] (g.X.getD i [])) = [k] := by
    refine filter_eq_singleton _ _ k hknd hkmem ?_
    intro i hi
    constructor
    · intro hpos
      by_contra hik
      have := hfother i (hmemlen i hi) hik
      rw [this] at hpos
      simp at hpos
    · intro hik
      subst hik
      rw [hfk]
      simp
  have hsumpos : 0 < (linear_weights g
      (knearest_inds g [(p0 : ℚ), (p1 : ℚ), (p2 : ℚ)]) [(p0 : ℚ), (p1 : ℚ), (p2 : ℚ)]).sum := by
    have h1mem : (1 : ℚ) ∈ linear_weights g
        (knearest_inds g [(p0 : ℚ), (p1 : ℚ), (p2 : ℚ)]) [(p0 : ℚ), (p1 : ℚ), (p2 : ℚ)] := by
      unfold linear_weights
      rw [← hfk]
      exact List.mem_map_of_mem _ hkmem
    have := List.single_le_sum
      (linear_weights_nonneg g _ [(p0 : ℚ), (p1 : ℚ), (p2 : ℚ)]) 1 h1mem
    linarith
  have hknnil : knearest_inds g [(p0 : ℚ), (p1 : ℚ), (p2 : ℚ)] ≠ [] := by
    intro hcon
    rw [hcon] at hkmem
    simp at hkmem
  have hwfn : weightsFn g 0 [eep, mass, feh] = some ([k], [1]) := by
    unfold weightsFn
    rw [hptg]
    simp only []
    rw [if_neg hknnil, if_neg (not_le.mpr hsumpos)]
    unfold linear_weights
    rw [zip_map_filter_pos, hfilter]
    simp only [List.map_cons, List.map_nil, List.sum_cons, List.sum_nil]
    rw [hfk]
    norm_num
  refine ⟨hwfn, ?_⟩
  have houtk : g.output.getD k [] = outk := by
    rw [List.getD_eq_getD_get?, hout]
    rfl
  have hdot : dotCols g.output g.npred [k] [1] = outk := by
    unfold dotCols
    rw [show (([k] : List ℕ).zip ([1] : List ℚ)) = [(k, (1 : ℚ))] from rfl]
    simp only [List.map_cons, List.map_nil, List.sum_cons, List.sum_nil]
    rw [houtk]
    have : (fun j => 1 * outk.getD j 0 + 0) = (fun j => outk.getD j 0) := by
      funext j
      ring
    rw [this, ← houtlen]
    exact range_map_getD_self outk
  unfold getMIST
  rw [hwfn]
  simp only [Option.some_inj]
  rw [hdot]

/-- C1 counterexample: vertex 8 of the sample grid is stored with label
coordinates `(EEP, mass, feh) = (2, 0, 0)` and output vector `[18]`, but
its EEP coordinate equals the EEP axis max, so `getMIST` at the vertex's
own coordinates returns the failure sentinel `none` instead of the stored
output vector. -/
theorem c1_counterexample :
    sampleGrid.libparams.get? 8 = some [2, 0, 0] ∧
    sampleGrid.output.get? 8 = some [18] ∧
    getMIST sampleGrid 0 0 2 0 = none ∧
    getMIST sampleGrid 0 0 2 0 ≠ some ([2, 0, 0] ++ [18]) := by
  have hnone : getMIST sampleGrid 0 0 2 0 = none := by
    have herr := params_to_grid_err_of_ge_max sampleGrid [2, 0, 0] 0 [0, 1, 2] 2
      (by decide) (by decide) (by decide) (by decide) (by decide)
    rw [getMIST_eq_none_iff]
    exact weightsFn_none_of_err sampleGrid 0 [2, 0, 0] _ herr
  refine ⟨by decide, by decide, hnone, ?_⟩
  intro hcon
  rw [hnone] at hcon
  exact Option.noConfusion hcon

/-- C1 witness: vertex 0 of the mini grid, with label coordinates
`(0, 0, 0)` all strictly below their axis maxima, is reproduced exactly:
its weight is 1, all others 0, and `getMIST` returns the stored output. -/
theorem c1_witness :
    weightsFn miniGrid 0 [0, 0, 0] = some ([0], [1]) ∧
    getMIST miniGrid 0 0 0 0 = some ([0, 0, 0] ++ [5]) :=
  c1_vertex_exact_amended miniGrid 0 0 0 0 [0, 1] [0, 1] [0, 1] 0 0 0 [5]
    (by decide) (by decide) (by decide) (by decide) (by decide) (by decide)
    (by decide) (by decide) (by decide) (by decide) (by decide) (by decide)
    (by decide) (by decide) (by decide)

end FastMIST
